import Mathlib

/-!
# Verification of the `induction` etudes

Shallow embedding of the three Python modules under `src/induction`
(`generate_binary_numbers.py`, `generate_n_digit_numbers.py`,
`generate_permutations.py`) together with proofs of the specified
properties.  Python strings are modelled as `List Char`, Python lists as
`List`, and non-negative Python integers as `Nat`.
-/

namespace Etudes

/-- `generate_binary_nums` from `src/induction/generate_binary_numbers.py`.
`n == 0` returns `[""]`; otherwise the list comprehension
`[num + suffix for num in binary_nums for suffix in ["0", "1"]]`
iterates `num` over the recursive result (outer loop) and `suffix`
over `["0", "1"]` (inner loop). -/
def generate_binary_nums : Nat → List (List Char)
  | 0 => [[]]
  | n + 1 =>
    let binary_nums := generate_binary_nums n
    binary_nums.flatMap (fun num => [['0'], ['1']].map (fun suffix => num ++ suffix))

/-- `generate_n_digit_numbers_no_zeros_recursive` from
`src/induction/generate_n_digit_numbers.py`.  Python's `range(1, 10)` is
`List.range' 1 9`; the outer loop runs over the digit, the inner loop over
the recursively generated `(n-1)`-digit numbers, and each new number is
`digit * 10 ** (n - 1) + prev_num`. -/
def generate_n_digit_numbers_no_zeros_recursive : Nat → List Nat
  | 0 => []
  | 1 => [1, 2, 3, 4, 5, 6, 7, 8, 9]
  | n + 2 =>
    let prev_numbers := generate_n_digit_numbers_no_zeros_recursive (n + 1)
    (List.range' 1 9).flatMap (fun digit =>
      prev_numbers.map (fun prev_num =>
        let base_num := 10 ^ (n + 1)
        digit * base_num + prev_num))

/-- The digit-sum `while` loop inside `filter_numbers_by_digit_sum`:
`while n > 0: digit_sum += n % 10; n //= 10`, with `acc` the running
value of the Python variable `digit_sum`. -/
def digit_sum_loop (n acc : Nat) : Nat :=
  if h : 0 < n then digit_sum_loop (n / 10) (acc + n % 10) else acc
termination_by n
decreasing_by exact Nat.div_lt_self h (by norm_num)

/-- The digit sum computed by the loop, started with `digit_sum = 0`. -/
def digit_sum (num : Nat) : Nat :=
  digit_sum_loop num 0

/-- `filter_numbers_by_digit_sum` from
`src/induction/generate_n_digit_numbers.py`: keep exactly the numbers whose
digit sum (as computed by the `while` loop) equals `k`, in order. -/
def filter_numbers_by_digit_sum (numbers : List Nat) (k : Nat) : List Nat :=
  numbers.filter (fun num => digit_sum num == k)

/-- `generate_n_digit_numbers_summing_to_k` from
`src/induction/generate_n_digit_numbers.py`. -/
def generate_n_digit_numbers_summing_to_k (n k : Nat) : List Nat :=
  let numbers := generate_n_digit_numbers_no_zeros_recursive n
  filter_numbers_by_digit_sum numbers k

/-- `interpolate` from `src/induction/generate_permutations.py`:
`[word[:pos] + ch + word[pos:] for pos in range(len(word) + 1)]`. -/
def interpolate (ch : Char) (word : List Char) : List (List Char) :=
  (List.range (word.length + 1)).map (fun pos =>
    word.take pos ++ [ch] ++ word.drop pos)

/-- `generate_permutations` from `src/induction/generate_permutations.py`.
`word[:pos] + word[pos + 1:]` removes the character at index `pos`, and
`ch = word[pos]` is that character; Python indexing `word[pos]` requires
`pos < len(word)` (the intended call pattern is `pos = len(word) - 1`), so
the total embedding reads it with a default. -/
def generate_permutations : List Char → Nat → List (List Char)
  | word, 0 => [word]
  | word, pos + 1 =>
    let curr_word := word.take (pos + 1) ++ word.drop (pos + 2)
    let perms := generate_permutations curr_word pos
    let ch := word.getD (pos + 1) default
    perms.flatMap (fun perm => interpolate ch perm)

/-- Fuel-counted variant of `generate_binary_nums`: `none` means the
recursion-depth budget `fuel` was exhausted.  Used to express that the
recursion depth of the Python function is bounded by `n`. -/
def generate_binary_nums_fuel : Nat → Nat → Option (List (List Char))
  | 0, _ => none
  | _ + 1, 0 => some [[]]
  | fuel + 1, n + 1 =>
    (generate_binary_nums_fuel fuel n).map (fun binary_nums =>
      binary_nums.flatMap (fun num => [['0'], ['1']].map (fun suffix => num ++ suffix)))

/-- Fuel-counted variant of `generate_n_digit_numbers_no_zeros_recursive`. -/
def generate_n_digit_numbers_no_zeros_fuel : Nat → Nat → Option (List Nat)
  | 0, _ => none
  | _ + 1, 0 => some []
  | _ + 1, 1 => some [1, 2, 3, 4, 5, 6, 7, 8, 9]
  | fuel + 1, n + 2 =>
    (generate_n_digit_numbers_no_zeros_fuel fuel (n + 1)).map (fun prev_numbers =>
      (List.range' 1 9).flatMap (fun digit =>
        prev_numbers.map (fun prev_num => digit * 10 ^ (n + 1) + prev_num)))

/-- Fuel-counted variant of `generate_permutations`. -/
def generate_permutations_fuel : Nat → List Char → Nat → Option (List (List Char))
  | 0, _, _ => none
  | _ + 1, word, 0 => some [word]
  | fuel + 1, word, pos + 1 =>
    (generate_permutations_fuel fuel (word.take (pos + 1) ++ word.drop (pos + 2)) pos).map
      (fun perms => perms.flatMap (fun perm => interpolate (word.getD (pos + 1) default) perm))

/-- The inductive step exactly as the spec words it: `S0` is every element of
`S` with `"0"` appended (at the end), `S1` likewise with `"1"`, and the result
is the concatenation `S0 ++ S1`.  Stated for comparison with the code. -/
def spec_step_append_then_concat (S : List (List Char)) : List (List Char) :=
  S.map (fun num => num ++ ['0']) ++ S.map (fun num => num ++ ['1'])

/-! ## Helper lemmas -/

/-- Lexicographic comparison of equal-length lists is preserved by appending
arbitrary suffixes to both sides. -/
theorem lex_of_lex_of_length_eq {α : Type} {r : α → α → Prop} :
    ∀ {u v : List α}, List.Lex r u v → u.length = v.length →
      ∀ s t : List α, List.Lex r (u ++ s) (v ++ t) := by
  intro u v h
  induction h with
  | nil => intro hlen; simp at hlen
  | cons _ ih =>
    intro hlen s t
    exact List.Lex.cons (ih (by simpa using hlen) s t)
  | rel hab => intro _ s t; exact List.Lex.rel hab

/-- Appending two related elements to the same list produces
lexicographically related lists. -/
theorem lex_append_singleton {α : Type} {r : α → α → Prop} {a b : α} (hab : r a b) :
    ∀ u : List α, List.Lex r (u ++ [a]) (u ++ [b])
  | [] => List.Lex.rel hab
  | _ :: u => List.Lex.cons (lex_append_singleton hab u)

/-- Lexicographic order over an irreflexive relation is irreflexive. -/
theorem lex_irrefl_of_irrefl {α : Type} {r : α → α → Prop} (hr : ∀ a, ¬r a a) :
    ∀ l : List α, ¬List.Lex r l l := by
  intro l
  induction l with
  | nil => exact List.Lex.not_nil_right r []
  | cons a l ih =>
    intro h
    cases h with
    | cons h => exact ih h
    | rel hab => exact hr a hab

/-- Invariant of `generate_binary_nums`: `2 ^ n` strings, each of length `n`,
pairwise strictly increasing in lexicographic order. -/
theorem generate_binary_nums_invariant (n : Nat) :
    (generate_binary_nums n).length = 2 ^ n
    ∧ (∀ s ∈ generate_binary_nums n, s.length = n)
    ∧ (generate_binary_nums n).Pairwise (List.Lex (· < ·)) := by
  induction n with
  | zero => exact ⟨rfl, by simp [generate_binary_nums], by simp [generate_binary_nums]⟩
  | succ n ih =>
    obtain ⟨hlen, hall, hpw⟩ := ih
    have hdef : generate_binary_nums (n + 1)
        = (generate_binary_nums n).flatMap (fun num => [num ++ ['0'], num ++ ['1']]) := rfl
    refine ⟨?_, ?_, ?_⟩
    · rw [hdef, List.length_flatMap]
      rw [show (List.length ∘ fun num : List Char => [num ++ ['0'], num ++ ['1']])
          = fun _ => 2 from rfl, List.map_const', List.sum_replicate, smul_eq_mul, hlen]
      ring
    · intro s hs
      rw [hdef, List.mem_flatMap] at hs
      obtain ⟨num, hnum, hs⟩ := hs
      have hnl := hall num hnum
      rcases (by simpa using hs : s = num ++ ['0'] ∨ s = num ++ ['1']) with rfl | rfl <;>
        simp [hnl]
    · rw [hdef, List.flatMap_def, List.pairwise_flatten]
      refine ⟨?_, ?_⟩
      · intro l hl
        rw [List.mem_map] at hl
        obtain ⟨num, _, rfl⟩ := hl
        exact List.pairwise_pair.mpr (lex_append_singleton (by decide : ('0' : Char) < '1') num)
      · rw [List.pairwise_map]
        refine hpw.imp_of_mem ?_
        intro num₁ num₂ h₁ h₂ hlex x hx y hy
        have e₁ := hall num₁ h₁
        have e₂ := hall num₂ h₂
        rcases (by simpa using hx : x = num₁ ++ ['0'] ∨ x = num₁ ++ ['1']) with rfl | rfl <;>
          rcases (by simpa using hy : y = num₂ ++ ['0'] ∨ y = num₂ ++ ['1']) with rfl | rfl <;>
            exact lex_of_lex_of_length_eq hlex (e₁.trans e₂.symm) _ _

/-- Invariant of `generate_n_digit_numbers_no_zeros_recursive` at `n + 1`:
`9 ^ (n+1)` numbers, strictly increasing, each with exactly `n + 1` decimal
digits all lying in `[1, 9]`. -/
theorem gen_no_zeros_invariant : ∀ n : Nat,
    (generate_n_digit_numbers_no_zeros_recursive (n + 1)).length = 9 ^ (n + 1)
    ∧ (generate_n_digit_numbers_no_zeros_recursive (n + 1)).Pairwise (· < ·)
    ∧ ∀ x ∈ generate_n_digit_numbers_no_zeros_recursive (n + 1),
        10 ^ n ≤ x ∧ x < 10 ^ (n + 1)
        ∧ (Nat.digits 10 x).length = n + 1
        ∧ ∀ d ∈ Nat.digits 10 x, 1 ≤ d ∧ d ≤ 9 := by
  intro n
  induction n with
  | zero =>
    refine ⟨rfl, by decide, ?_⟩
    intro x hx
    have hx19 : 1 ≤ x ∧ x ≤ 9 := by
      simp [generate_n_digit_numbers_no_zeros_recursive] at hx
      omega
    have hdig : Nat.digits 10 x = [x] := Nat.digits_of_lt 10 x (by omega) (by omega)
    refine ⟨by simpa using hx19.1, by omega, by simp [hdig], ?_⟩
    intro d hd
    rw [hdig, List.mem_singleton] at hd
    omega
  | succ n ih =>
    obtain ⟨hlen, hpw, hmem⟩ := ih
    have hdef : generate_n_digit_numbers_no_zeros_recursive (n + 2)
        = (List.range' 1 9).flatMap (fun digit =>
            (generate_n_digit_numbers_no_zeros_recursive (n + 1)).map
              (fun prev_num => digit * 10 ^ (n + 1) + prev_num)) := rfl
    have hdigits : ∀ digit, 1 ≤ digit → digit ≤ 9 →
        ∀ p ∈ generate_n_digit_numbers_no_zeros_recursive (n + 1),
          Nat.digits 10 (digit * 10 ^ (n + 1) + p) = Nat.digits 10 p ++ [digit] := by
      intro digit h1 h9 p hp
      obtain ⟨-, -, hplen, -⟩ := hmem p hp
      have hd : Nat.digits 10 digit = [digit] := Nat.digits_of_lt 10 digit (by omega) (by omega)
      have := Nat.digits_append_digits (b := 10) (n := p) (m := digit) (by norm_num)
      rw [hd, hplen] at this
      rw [this]
      ring_nf
    refine ⟨?_, ?_, ?_⟩
    · rw [hdef, List.length_flatMap]
      have : (List.map (List.length ∘ fun digit =>
          (generate_n_digit_numbers_no_zeros_recursive (n + 1)).map
            (fun prev_num => digit * 10 ^ (n + 1) + prev_num)) (List.range' 1 9))
          = List.replicate 9 (generate_n_digit_numbers_no_zeros_recursive (n + 1)).length := by
        rw [show (List.length ∘ fun digit : Nat =>
            (generate_n_digit_numbers_no_zeros_recursive (n + 1)).map
              (fun prev_num => digit * 10 ^ (n + 1) + prev_num))
            = fun _ => (generate_n_digit_numbers_no_zeros_recursive (n + 1)).length from by
              funext digit; simp, List.map_const']
        rfl
      rw [this, List.sum_replicate, smul_eq_mul, hlen]
      ring
    · rw [hdef, List.flatMap_def, List.pairwise_flatten]
      constructor
      · intro l hl
        rw [List.mem_map] at hl
        obtain ⟨digit, -, rfl⟩ := hl
        rw [List.pairwise_map]
        exact hpw.imp (fun h => Nat.add_lt_add_left h _)
      · rw [List.pairwise_map]
        refine (by decide : (List.range' 1 9).Pairwise (· < ·)).imp_of_mem ?_
        intro d₁ d₂ hd₁ hd₂ hlt x hx y hy
        rw [List.mem_range'_1] at hd₁ hd₂
        rw [List.mem_map] at hx hy
        obtain ⟨p₁, hp₁, rfl⟩ := hx
        obtain ⟨p₂, hp₂, rfl⟩ := hy
        have hub₁ := (hmem p₁ hp₁).2.1
        calc d₁ * 10 ^ (n + 1) + p₁ < (d₁ + 1) * 10 ^ (n + 1) := by
              rw [add_mul, one_mul]; omega
          _ ≤ d₂ * 10 ^ (n + 1) := Nat.mul_le_mul_right _ (by omega)
          _ ≤ d₂ * 10 ^ (n + 1) + p₂ := Nat.le_add_right _ _
    · intro x hx
      rw [hdef, List.mem_flatMap] at hx
      obtain ⟨digit, hdigit, hx⟩ := hx
      rw [List.mem_range'_1] at hdigit
      rw [List.mem_map] at hx
      obtain ⟨p, hp, rfl⟩ := hx
      obtain ⟨hlb, hub, hplen, hpdig⟩ := hmem p hp
      have hdig := hdigits digit (by omega) (by omega) p hp
      refine ⟨?_, ?_, ?_, ?_⟩
      · calc 10 ^ (n + 1) = 1 * 10 ^ (n + 1) := (one_mul _).symm
          _ ≤ digit * 10 ^ (n + 1) := Nat.mul_le_mul_right _ (by omega)
          _ ≤ digit * 10 ^ (n + 1) + p := Nat.le_add_right _ _
      · calc digit * 10 ^ (n + 1) + p < (digit + 1) * 10 ^ (n + 1) := by
              rw [add_mul, one_mul]; omega
          _ ≤ 10 * 10 ^ (n + 1) := Nat.mul_le_mul_right _ (by omega)
          _ = 10 ^ (n + 2) := by ring
      · rw [hdig]; simp [hplen]
      · intro d hd
        rw [hdig, List.mem_append, List.mem_singleton] at hd
        rcases hd with hd | rfl
        · exact hpdig d hd
        · omega

/-- The accumulator loop computes the initial accumulator plus the sum of the
base-10 digits. -/
theorem digit_sum_loop_eq (n : Nat) : ∀ acc, digit_sum_loop n acc = acc + (Nat.digits 10 n).sum := by
  induction n using Nat.strong_induction_on with
  | _ n ih =>
    intro acc
    rw [digit_sum_loop]
    split
    · next h =>
      rw [ih (n / 10) (Nat.div_lt_self h (by norm_num)),
        Nat.digits_def' (by norm_num : (1 : ℕ) < 10) h]
      simp
      omega
    · next h => simp at h; simp [h]

/-- The digit-sum loop agrees with the sum of `Nat.digits 10`. -/
theorem digit_sum_eq_digits_sum (num : Nat) : digit_sum num = (Nat.digits 10 num).sum := by
  simpa using digit_sum_loop_eq num 0

/-- Membership in `interpolate ch w` means being `w` with `ch` inserted
immediately before some index `i ≤ w.length`. -/
theorem mem_interpolate {ch : Char} {w s : List Char} :
    s ∈ interpolate ch w ↔ ∃ i, i ≤ w.length ∧ s = w.take i ++ ch :: w.drop i := by
  rw [interpolate]
  constructor
  · intro hs
    rw [List.mem_map] at hs
    obtain ⟨i, hi, rfl⟩ := hs
    rw [List.mem_range, Nat.lt_succ_iff] at hi
    exact ⟨i, hi, by simp⟩
  · rintro ⟨i, hi, rfl⟩
    rw [List.mem_map]
    exact ⟨i, by rw [List.mem_range, Nat.lt_succ_iff]; exact hi, by simp⟩

/-- Every element of `interpolate ch w` is a permutation of `ch :: w`. -/
theorem perm_of_mem_interpolate {ch : Char} {w s : List Char}
    (hs : s ∈ interpolate ch w) : s.Perm (ch :: w) := by
  obtain ⟨i, -, rfl⟩ := mem_interpolate.mp hs
  calc (w.take i ++ ch :: w.drop i).Perm (ch :: (w.take i ++ w.drop i)) := List.perm_middle
    _ = ch :: w := by rw [List.take_append_drop]

/-- Inserting `ch` between `u` and `v` is one of the interpolations of
`u ++ v`. -/
theorem insert_mem_interpolate (ch : Char) (u v : List Char) :
    u ++ ch :: v ∈ interpolate ch (u ++ v) := by
  rw [mem_interpolate]
  exact ⟨u.length, by simp, by rw [List.take_left, List.drop_left]⟩

/-- Erasing the inserted character recovers the original list, provided the
character did not occur in it. -/
theorem erase_of_mem_interpolate {ch : Char} {w s : List Char} (hch : ch ∉ w)
    (hs : s ∈ interpolate ch w) : s.erase ch = w := by
  obtain ⟨i, -, rfl⟩ := mem_interpolate.mp hs
  rw [List.erase_append_right _ (fun hmem => hch (List.mem_of_mem_take hmem)),
    List.erase_cons_head, List.take_append_drop]

/-- Inserting a fresh character at two different positions gives different
lists. -/
theorem insert_pos_injective :
    ∀ (l : List Char) (ch : Char), ch ∉ l → ∀ i j, i ≤ l.length → j ≤ l.length →
      l.take i ++ ch :: l.drop i = l.take j ++ ch :: l.drop j → i = j := by
  intro l
  induction l with
  | nil =>
    intro ch _ i j hi hj _
    simp at hi hj
    omega
  | cons a l ih =>
    intro ch hch i j hi hj heq
    match i, j with
    | 0, 0 => rfl
    | 0, j + 1 =>
      rw [List.take_zero, List.drop_zero, List.take_succ_cons, List.drop_succ_cons,
        List.nil_append, List.cons_append] at heq
      injection heq with h₁ h₂
      exact absurd (h₁ ▸ List.mem_cons_self a l) hch
    | i + 1, 0 =>
      rw [List.take_zero, List.drop_zero, List.take_succ_cons, List.drop_succ_cons,
        List.nil_append, List.cons_append] at heq
      injection heq with h₁ h₂
      exact absurd (h₁.symm ▸ List.mem_cons_self a l) hch
    | i + 1, j + 1 =>
      rw [List.take_succ_cons, List.drop_succ_cons, List.take_succ_cons, List.drop_succ_cons,
        List.cons_append, List.cons_append] at heq
      injection heq with h₁ h₂
      have := ih ch (fun hmem => hch (List.mem_cons_of_mem a hmem)) i j
        (by simpa using hi) (by simpa using hj) h₂
      omega

/-- The interpolations of a list not containing `ch` are pairwise distinct. -/
theorem interpolate_nodup {ch : Char} {w : List Char} (hch : ch ∉ w) :
    (interpolate ch w).Nodup := by
  rw [interpolate]
  refine List.Nodup.map_on ?_ (List.nodup_range _)
  intro i hi j hj heq
  rw [List.mem_range, Nat.lt_succ_iff] at hi hj
  exact insert_pos_injective w ch hch i j hi hj (by simpa using heq)

/-- Invariant of `generate_permutations` when called with `pos` one less than
the word length: `(pos + 1)!` results, every result is a permutation of the
word, every permutation of the word occurs, and for duplicate-free words the
results are pairwise distinct. -/
theorem generate_permutations_invariant :
    ∀ (pos : Nat) (word : List Char), word.length = pos + 1 →
      (generate_permutations word pos).length = (pos + 1).factorial
      ∧ (∀ s ∈ generate_permutations word pos, s.Perm word)
      ∧ (∀ s, s.Perm word → s ∈ generate_permutations word pos)
      ∧ (word.Nodup → (generate_permutations word pos).Nodup) := by
  intro pos
  induction pos with
  | zero =>
    intro word hw
    refine ⟨by simp [generate_permutations, Nat.factorial], ?_, ?_, ?_⟩
    · intro s hs
      rw [show generate_permutations word 0 = [word] from rfl, List.mem_singleton] at hs
      exact hs ▸ List.Perm.refl word
    · intro s hs
      obtain ⟨a, rfl⟩ := List.length_eq_one.mp hw
      rw [show generate_permutations [a] 0 = [[a]] from rfl, List.mem_singleton]
      exact List.perm_singleton.mp hs
    · intro _
      simp [generate_permutations]
  | succ pos ih =>
    intro word hw
    obtain hnil | ⟨L, b, hLb⟩ := word.eq_nil_or_concat
    · rw [hnil] at hw
      simp at hw
    · rw [List.concat_eq_append] at hLb
      subst hLb
      have hL : L.length = pos + 1 := by simp at hw; omega
      have hcurr : (L ++ [b]).take (pos + 1) ++ (L ++ [b]).drop (pos + 2) = L := by
        rw [List.take_left' hL, List.drop_eq_nil_of_le (by simp [hL]), List.append_nil]
      have hch : (L ++ [b]).getD (pos + 1) default = b := by
        rw [List.getD_eq_getElem _ _ (by simp [hL])]
        exact List.getElem_concat_length L b (pos + 1) hL.symm _
      have hdef : generate_permutations (L ++ [b]) (pos + 1)
          = (generate_permutations L pos).flatMap (fun perm => interpolate b perm) := by
        rw [show generate_permutations (L ++ [b]) (pos + 1)
            = (generate_permutations
                ((L ++ [b]).take (pos + 1) ++ (L ++ [b]).drop (pos + 2)) pos).flatMap
                (fun perm => interpolate ((L ++ [b]).getD (pos + 1) default) perm) from rfl,
          hcurr, hch]
      obtain ⟨ihlen, ihsound, ihcomplete, ihnodup⟩ := ih L hL
      have hwordperm : (L ++ [b]).Perm (b :: L) := by
        have h := @List.perm_middle _ b L []
        rw [List.append_nil] at h
        exact h
      refine ⟨?_, ?_, ?_, ?_⟩
      · rw [hdef, List.length_flatMap]
        have hmap : List.map (List.length ∘ fun perm => interpolate b perm)
            (generate_permutations L pos)
            = List.replicate (generate_permutations L pos).length (pos + 2) := by
          rw [← List.map_const']
          refine List.map_congr_left ?_
          intro perm hperm
          have hpl : perm.length = pos + 1 := by
            rw [(ihsound perm hperm).length_eq, hL]
          simp [interpolate, hpl, Function.comp]
        rw [hmap, List.sum_replicate, smul_eq_mul, ihlen, Nat.factorial_succ (pos + 1)]
        ring
      · intro s hs
        rw [hdef, List.mem_flatMap] at hs
        obtain ⟨perm, hperm, hs⟩ := hs
        have h₁ : s.Perm (b :: perm) := perm_of_mem_interpolate hs
        have h₂ : (b :: perm).Perm (b :: L) := (ihsound perm hperm).cons b
        exact (h₁.trans h₂).trans hwordperm.symm
      · intro s hs
        have hbmem : b ∈ s := hs.mem_iff.mpr (by simp)
        obtain ⟨u, v, rfl⟩ := List.append_of_mem hbmem
        have huv : (u ++ v).Perm L := by
          have h₁ : (u ++ b :: v).Perm (b :: (u ++ v)) := List.perm_middle
          exact ((h₁.symm.trans hs).trans hwordperm).cons_inv
        rw [hdef, List.mem_flatMap]
        exact ⟨u ++ v, ihcomplete _ huv, insert_mem_interpolate b u v⟩
      · intro hnd
        rw [List.nodup_append] at hnd
        obtain ⟨hndL, -, hdisj⟩ := hnd
        have hbL : b ∉ L := fun hmem => hdisj hmem (by simp)
        rw [hdef, List.nodup_flatMap]
        constructor
        · intro perm hperm
          exact interpolate_nodup (fun hmem => hbL ((ihsound perm hperm).mem_iff.mp hmem))
        · refine (ihnodup hndL).imp_of_mem ?_
          intro p₁ p₂ hp₁ hp₂ hne s hs₁ hs₂
          have hb₁ : b ∉ p₁ := fun hmem => hbL ((ihsound p₁ hp₁).mem_iff.mp hmem)
          have hb₂ : b ∉ p₂ := fun hmem => hbL ((ihsound p₂ hp₂).mem_iff.mp hmem)
          exact hne ((erase_of_mem_interpolate hb₁ hs₁).symm.trans
            (erase_of_mem_interpolate hb₂ hs₂))

/-! ## Claim theorems -/

/-- C1: for every `n ≥ 0`, `generate_binary_nums n` returns exactly the `2 ^ n`
binary strings of length `n` (every string has length `n`, all are distinct)
in lexicographic order; and `generate_binary_nums` at `0`, `1`, `2` returns
`[""]`, `["0", "1"]`, `["00", "01", "10", "11"]` in exactly that order. -/
theorem generate_binary_nums_correct :
    (∀ n : Nat,
      (generate_binary_nums n).length = 2 ^ n
      ∧ (∀ s ∈ generate_binary_nums n, s.length = n)
      ∧ (generate_binary_nums n).Nodup
      ∧ (generate_binary_nums n).Pairwise (List.Lex (· < ·)))
    ∧ generate_binary_nums 0 = [[]]
    ∧ generate_binary_nums 1 = [['0'], ['1']]
    ∧ generate_binary_nums 2 = [['0', '0'], ['0', '1'], ['1', '0'], ['1', '1']] := by
  refine ⟨fun n => ?_, by decide, by decide, by decide⟩
  obtain ⟨hlen, hall, hpw⟩ := generate_binary_nums_invariant n
  refine ⟨hlen, hall, ?_, hpw⟩
  refine hpw.imp ?_
  intro a b h heq
  exact lex_irrefl_of_irrefl (fun c : Char => lt_irrefl c) b (heq ▸ h)

/-- Witness for C1: length of the element `"01"` of `generate_binary_nums 2`,
and the count at `n = 2`. -/
theorem generate_binary_nums_correct_witness :
    (['0', '1'] : List Char).length = 2 ∧ (generate_binary_nums 2).length = 2 ^ 2 :=
  ⟨(generate_binary_nums_correct.1 2).2.1 ['0', '1'] (by decide),
    (generate_binary_nums_correct.1 2).1⟩

/-- C3: for every `n ≥ 1`, the sequence returned by
`generate_n_digit_numbers_no_zeros_recursive n` is strictly increasing
(each element is strictly less than the next). -/
theorem gen_no_zeros_strictly_increasing (n : Nat) (h : 1 ≤ n) :
    (generate_n_digit_numbers_no_zeros_recursive n).Chain' (· < ·) := by
  obtain ⟨m, rfl⟩ : ∃ m, n = m + 1 := ⟨n - 1, by omega⟩
  exact ((gen_no_zeros_invariant m).2.1).chain'

/-- Witness for C3 at `n = 2`. -/
theorem gen_no_zeros_strictly_increasing_witness :
    1 ≤ 2 ∧ (generate_n_digit_numbers_no_zeros_recursive 2).Chain' (· < ·) :=
  ⟨by decide, gen_no_zeros_strictly_increasing 2 (by decide)⟩

/-- C4: for every `n ≥ 1`, `generate_n_digit_numbers_no_zeros_recursive n`
returns exactly `9 ^ n` numbers, each satisfying
`10 ^ (n-1) ≤ num < 10 ^ n` with no decimal digit equal to `0`; at `n = 0`
it returns the empty list and at `n = 1` it returns `[1, ..., 9]`. -/
theorem gen_no_zeros_count_range :
    (∀ n : Nat, 1 ≤ n →
      (generate_n_digit_numbers_no_zeros_recursive n).length = 9 ^ n
      ∧ ∀ num ∈ generate_n_digit_numbers_no_zeros_recursive n,
          10 ^ (n - 1) ≤ num ∧ num < 10 ^ n ∧ 0 ∉ Nat.digits 10 num)
    ∧ generate_n_digit_numbers_no_zeros_recursive 0 = []
    ∧ generate_n_digit_numbers_no_zeros_recursive 1 = [1, 2, 3, 4, 5, 6, 7, 8, 9] := by
  refine ⟨?_, rfl, rfl⟩
  intro n hn
  obtain ⟨m, rfl⟩ : ∃ m, n = m + 1 := ⟨n - 1, by omega⟩
  obtain ⟨hlen, -, hmem⟩ := gen_no_zeros_invariant m
  refine ⟨hlen, ?_⟩
  intro num hnum
  obtain ⟨hlb, hub, -, hdig⟩ := hmem num hnum
  refine ⟨by simpa using hlb, hub, ?_⟩
  intro h0
  exact absurd (hdig 0 h0).1 (by omega)

/-- Witness for C4 at `n = 2`. -/
theorem gen_no_zeros_count_range_witness :
    (generate_n_digit_numbers_no_zeros_recursive 2).length = 9 ^ 2
    ∧ ∀ num ∈ generate_n_digit_numbers_no_zeros_recursive 2,
        10 ^ (2 - 1) ≤ num ∧ num < 10 ^ 2 ∧ 0 ∉ Nat.digits 10 num :=
  gen_no_zeros_count_range.1 2 (by decide)

/-- C5: `filter_numbers_by_digit_sum numbers k` keeps exactly the elements
whose base-10 digit sum is `k`, as an order-preserving subsequence of
`numbers`; the digit sum of `0` is `0`, so `0` is kept exactly when
`k = 0`. -/
theorem filter_numbers_by_digit_sum_correct (numbers : List Nat) (k : Nat) :
    filter_numbers_by_digit_sum numbers k
        = numbers.filter (fun num => (Nat.digits 10 num).sum == k)
    ∧ (filter_numbers_by_digit_sum numbers k).Sublist numbers
    ∧ (∀ num ∈ filter_numbers_by_digit_sum numbers k,
        num ∈ numbers ∧ (Nat.digits 10 num).sum = k)
    ∧ (∀ num ∈ numbers, (Nat.digits 10 num).sum = k →
        num ∈ filter_numbers_by_digit_sum numbers k)
    ∧ digit_sum 0 = 0
    ∧ (0 ∈ filter_numbers_by_digit_sum numbers k ↔ 0 ∈ numbers ∧ k = 0) := by
  have hfun : (fun num => digit_sum num == k) = (fun num => (Nat.digits 10 num).sum == k) := by
    funext num
    rw [digit_sum_eq_digits_sum]
  have hzero : digit_sum 0 = 0 := by rw [digit_sum_eq_digits_sum]; simp
  have heq : filter_numbers_by_digit_sum numbers k
      = numbers.filter (fun num => (Nat.digits 10 num).sum == k) := by
    rw [filter_numbers_by_digit_sum, hfun]
  refine ⟨heq, ?_, ?_, ?_, hzero, ?_⟩
  · rw [filter_numbers_by_digit_sum]
    exact numbers.filter_sublist
  · intro num hnum
    rw [heq, List.mem_filter] at hnum
    exact ⟨hnum.1, by simpa using hnum.2⟩
  · intro num hnum hsum
    rw [heq, List.mem_filter]
    exact ⟨hnum, by simpa using hsum⟩
  · rw [heq, List.mem_filter]
    constructor
    · rintro ⟨h0, hk⟩
      simp at hk
      exact ⟨h0, hk.symm⟩
    · rintro ⟨h0, rfl⟩
      simp [h0]

/-- Witness for C5: `18` (digit sum `9`) is kept, and the `0`-membership
characterisation at `numbers = [0]`, `k = 0`. -/
theorem filter_numbers_by_digit_sum_correct_witness :
    18 ∈ filter_numbers_by_digit_sum [18] 9
    ∧ (0 ∈ filter_numbers_by_digit_sum [0] 0 ↔ 0 ∈ [0] ∧ 0 = 0) :=
  ⟨(filter_numbers_by_digit_sum_correct [18] 9).2.2.2.1 18 (by decide)
      (by norm_num [Nat.digits_def']),
    (filter_numbers_by_digit_sum_correct [0] 0).2.2.2.2.2⟩

/-- C6: `generate_n_digit_numbers_summing_to_k n k` is the empty list
whenever `n ≥ 1` and `k = 0`, whenever `k > 9 * n`, and whenever `n = 0`;
all three are ordinary empty results of the same filtering pipeline. -/
theorem summing_to_k_empty (n k : Nat) :
    (1 ≤ n → k = 0 → generate_n_digit_numbers_summing_to_k n k = [])
    ∧ (9 * n < k → generate_n_digit_numbers_summing_to_k n k = [])
    ∧ (n = 0 → generate_n_digit_numbers_summing_to_k n k = []) := by
  have hsum : ∀ m : Nat, ∀ x ∈ generate_n_digit_numbers_no_zeros_recursive (m + 1),
      m + 1 ≤ digit_sum x ∧ digit_sum x ≤ 9 * (m + 1) := by
    intro m x hx
    obtain ⟨-, -, hxlen, hxdig⟩ := (gen_no_zeros_invariant m).2.2 x hx
    rw [digit_sum_eq_digits_sum]
    constructor
    · have := List.card_nsmul_le_sum (Nat.digits 10 x) 1 (fun d hd => (hxdig d hd).1)
      rw [hxlen] at this
      simpa using this
    · have := List.sum_le_card_nsmul (Nat.digits 10 x) 9 (fun d hd => (hxdig d hd).2)
      rw [hxlen] at this
      simpa [Nat.mul_comm] using this
  have hempty : ∀ m : Nat, (∀ x ∈ generate_n_digit_numbers_no_zeros_recursive m,
      digit_sum x ≠ k) → generate_n_digit_numbers_summing_to_k m k = [] := by
    intro m hne
    rw [generate_n_digit_numbers_summing_to_k, filter_numbers_by_digit_sum,
      List.filter_eq_nil_iff]
    intro x hx
    simpa using hne x hx
  refine ⟨?_, ?_, ?_⟩
  · intro hn hk
    obtain ⟨m, rfl⟩ : ∃ m, n = m + 1 := ⟨n - 1, by omega⟩
    refine hempty (m + 1) ?_
    intro x hx
    have := (hsum m x hx).1
    omega
  · intro hk
    cases n with
    | zero => exact hempty 0 (by simp [generate_n_digit_numbers_no_zeros_recursive])
    | succ m =>
      refine hempty (m + 1) ?_
      intro x hx
      have := (hsum m x hx).2
      omega
  · rintro rfl
    rfl

/-- Witness for C6 at `(n, k) = (1, 0)`, `(1, 10)` and `(0, 5)`. -/
theorem summing_to_k_empty_witness :
    generate_n_digit_numbers_summing_to_k 1 0 = []
    ∧ generate_n_digit_numbers_summing_to_k 1 10 = []
    ∧ generate_n_digit_numbers_summing_to_k 0 5 = [] :=
  ⟨(summing_to_k_empty 1 0).1 (by decide) rfl,
    (summing_to_k_empty 1 10).2.1 (by decide),
    (summing_to_k_empty 0 5).2.2 rfl⟩

/-- C2 counterexample: at `n = 2` the code does not return `S0 ++ S1` where
`S0` (resp. `S1`) is every element of `S = generate_binary_nums 1` with `"0"`
(resp. `"1"`) appended: that would be `["00", "10", "01", "11"]`, while the
code returns `["00", "01", "10", "11"]`. -/
theorem generate_binary_nums_not_append_blocks :
    generate_binary_nums 2 ≠ spec_step_append_then_concat (generate_binary_nums 1) := by
  decide

/-- C2 (amended): for every `n ≥ 1`, `generate_binary_nums n` is the
concatenation, over the elements `s` of `S = generate_binary_nums (n-1)` in
order, of the two-element lists `[s ++ "0", s ++ "1"]`; equivalently it equals
the elements of `S` each with `"0"` prepended, followed by the elements of `S`
each with `"1"` prepended. -/
theorem generate_binary_nums_step (n : Nat) :
    generate_binary_nums (n + 1)
      = (generate_binary_nums n).flatMap (fun num => [num ++ ['0'], num ++ ['1']])
    ∧ generate_binary_nums (n + 1)
      = (generate_binary_nums n).map (fun num => '0' :: num)
        ++ (generate_binary_nums n).map (fun num => '1' :: num) := by
  refine ⟨rfl, ?_⟩
  induction n with
  | zero => decide
  | succ n ih =>
    have hstep : ∀ (c : Char) (l : List (List Char)),
        (l.map (fun s => c :: s)).flatMap (fun num => [num ++ ['0'], num ++ ['1']])
          = (l.flatMap (fun num => [num ++ ['0'], num ++ ['1']])).map (fun s => c :: s) := by
      intro c l
      rw [List.flatMap_map, List.map_flatMap]
      rfl
    have hdef : generate_binary_nums (n + 2)
        = (generate_binary_nums (n + 1)).flatMap (fun num => [num ++ ['0'], num ++ ['1']]) := rfl
    have hdefn : generate_binary_nums (n + 1)
        = (generate_binary_nums n).flatMap (fun num => [num ++ ['0'], num ++ ['1']]) := rfl
    rw [hdef, ih, List.flatMap_append, hstep, hstep, ← hdefn, ih]

/-- C7: `interpolate ch word` returns exactly `word.length + 1` words, the one
at position `i` being `word` with `ch` inserted immediately before index `i`
(so positions run from insert-at-start to insert-at-end); in particular
`interpolate 'x' "ab" = ["xab", "axb", "abx"]`. -/
theorem interpolate_correct (ch : Char) (word : List Char) :
    (interpolate ch word).length = word.length + 1
    ∧ (∀ i, i ≤ word.length →
        (interpolate ch word).getD i [] = word.take i ++ ch :: word.drop i)
    ∧ interpolate 'x' ['a', 'b'] = [['x', 'a', 'b'], ['a', 'x', 'b'], ['a', 'b', 'x']] := by
  refine ⟨by simp [interpolate], ?_, by decide⟩
  intro i hi
  rw [interpolate, List.getD_eq_getElem?_getD, List.getElem?_map,
    List.getElem?_range (by omega)]
  simp

/-- Witness for C7: the middle interpolation of `'x'` into `"ab"`. -/
theorem interpolate_correct_witness :
    (interpolate 'x' ['a', 'b']).getD 1 [] = ['a', 'x', 'b'] := by
  have h := (interpolate_correct 'x' ['a', 'b']).2.1 1 (by decide)
  simpa using h

/-- C8: for a word of length `L ≥ 1` called with `pos = L - 1`,
`generate_permutations` returns exactly `L!` results (with multiplicity);
when the symbols are pairwise distinct the results are pairwise distinct and
are exactly the orderings (permutations) of the word; and
`generate_permutations "a" 0 = ["a"]`,
`generate_permutations "aa" 1 = ["aa", "aa"]`. -/
theorem generate_permutations_correct :
    (∀ (word : List Char) (L : Nat), word.length = L → 1 ≤ L →
      (generate_permutations word (L - 1)).length = L.factorial
      ∧ (word.Nodup →
          (generate_permutations word (L - 1)).Nodup
          ∧ ∀ s, s ∈ generate_permutations word (L - 1) ↔ s.Perm word))
    ∧ generate_permutations ['a'] 0 = [['a']]
    ∧ generate_permutations ['a', 'a'] 1 = [['a', 'a'], ['a', 'a']] := by
  refine ⟨?_, by decide, by decide⟩
  intro word L hlen hL
  obtain ⟨m, rfl⟩ : ∃ m, L = m + 1 := ⟨L - 1, by omega⟩
  rw [Nat.add_sub_cancel]
  obtain ⟨h₁, h₂, h₃, h₄⟩ := generate_permutations_invariant m word hlen
  exact ⟨h₁, fun hnd => ⟨h₄ hnd, fun s => ⟨h₂ s, h₃ s⟩⟩⟩

/-- Witness for C8 at `word = "ab"`, `L = 2`. -/
theorem generate_permutations_correct_witness :
    (generate_permutations ['a', 'b'] (2 - 1)).length = Nat.factorial 2
    ∧ ((generate_permutations ['a', 'b'] (2 - 1)).Nodup
        ∧ ∀ s, s ∈ generate_permutations ['a', 'b'] (2 - 1) ↔ s.Perm ['a', 'b']) := by
  have h := generate_permutations_correct.1 ['a', 'b'] 2 (by decide) (by decide)
  exact ⟨h.1, h.2 (by decide)⟩

/-- C9: each generator terminates, the recursion depth being bounded by its
decreasing argument: with `n + 1` (resp. `pos + 1`) units of fuel — one per
recursion level — the fuel-counted variants never exhaust their budget and
return exactly the value of the corresponding total function. -/
theorem generators_terminate :
    (∀ n : Nat, generate_binary_nums_fuel (n + 1) n = some (generate_binary_nums n))
    ∧ (∀ n : Nat, generate_n_digit_numbers_no_zeros_fuel (n + 1) n
        = some (generate_n_digit_numbers_no_zeros_recursive n))
    ∧ (∀ (word : List Char) (pos : Nat),
        generate_permutations_fuel (pos + 1) word pos
          = some (generate_permutations word pos)) := by
  refine ⟨?_, ?_, ?_⟩
  · intro n
    induction n with
    | zero => rfl
    | succ n ih =>
      have h : generate_binary_nums_fuel (n + 2) (n + 1)
          = (generate_binary_nums_fuel (n + 1) n).map (fun binary_nums =>
              binary_nums.flatMap (fun num =>
                [['0'], ['1']].map (fun suffix => num ++ suffix))) := rfl
      rw [h, ih, Option.map_some']
      rfl
  · intro n
    induction n with
    | zero => rfl
    | succ n ih =>
      cases n with
      | zero => rfl
      | succ m =>
        have h : generate_n_digit_numbers_no_zeros_fuel (m + 3) (m + 2)
            = (generate_n_digit_numbers_no_zeros_fuel (m + 2) (m + 1)).map
                (fun prev_numbers => (List.range' 1 9).flatMap (fun digit =>
                  prev_numbers.map (fun prev_num =>
                    digit * 10 ^ (m + 1) + prev_num))) := rfl
        rw [h, ih, Option.map_some']
        rfl
  · intro word pos
    induction pos generalizing word with
    | zero => rfl
    | succ pos ih =>
      have h : generate_permutations_fuel (pos + 2) word (pos + 1)
          = (generate_permutations_fuel (pos + 1)
              (word.take (pos + 1) ++ word.drop (pos + 2)) pos).map
              (fun perms => perms.flatMap (fun perm =>
                interpolate (word.getD (pos + 1) default) perm)) := rfl
      rw [h, ih, Option.map_some']
      rfl

/-- C10: for any word of length `L ≥ 1` (repeated symbols allowed) called
with `pos = L - 1`, every output of `generate_permutations` has the same
length and the same multiset of characters as the input word. -/
theorem generate_permutations_rearrangement (word : List Char) (L : Nat)
    (hlen : word.length = L) (hL : 1 ≤ L) :
    ∀ s ∈ generate_permutations word (L - 1),
      s.length = word.length ∧ (s : Multiset Char) = (word : Multiset Char) := by
  obtain ⟨m, rfl⟩ : ∃ m, L = m + 1 := ⟨L - 1, by omega⟩
  obtain ⟨-, hsound, -, -⟩ := generate_permutations_invariant m word hlen
  intro s hs
  rw [Nat.add_sub_cancel] at hs
  have hp := hsound s hs
  exact ⟨hp.length_eq, Multiset.coe_eq_coe.mpr hp⟩

/-- Witness for C10 on the repeated-symbol word `"aa"`. -/
theorem generate_permutations_rearrangement_witness :
    (['a', 'a'] : List Char).length = (['a', 'a'] : List Char).length
    ∧ ((['a', 'a'] : List Char) : Multiset Char)
      = ((['a', 'a'] : List Char) : Multiset Char) :=
  generate_permutations_rearrangement ['a', 'a'] 2 (by decide) (by decide)
    ['a', 'a'] (by decide)

end Etudes
